import Mathlib

/-!
Shallow embedding of the zynthian controller value model and MIDI-learn
routing table (zyngine/zynthian_controller.py, zyngine/zynthian_engine.py).

Numeric values are modelled as rationals (Python ints and floats under the
exact arithmetic the claims are about); Python `int()` is truncation toward
zero; `None`-able fields are `Option`s; Python truthiness of optional
numbers/strings is modelled explicitly.
-/

namespace ZynModel

/-- Python `int(q)`: truncation toward zero (floor for nonnegative,
ceiling for negative arguments). -/
def pyInt (q : ℚ) : ℤ := if 0 ≤ q then ⌊q⌋ else ⌈q⌉

/-- Python truthiness of an optional integer: `None` and `0` are falsy. -/
def truthyOptInt : Option ℤ → Bool
  | none => false
  | some n => n != 0

/-- Python truthiness of an optional string: `None` and `""` are falsy. -/
def truthyOptStr : Option String → Bool
  | none => false
  | some s => s != ""

/-- The controller state fields used by the value model of
`zynthian_controller` (zynthian_controller.py).  `has_engine` models the
truthiness of `self.engine`; `engine_send_fails` models whether the
engine's `send_controller_value` raises (the base engine always raises
"NOT IMPLEMENTED!", concrete engines may not). -/
structure zctrl where
  value : ℚ
  value_min : ℚ
  value_mid : ℚ
  value_max : ℚ
  value_range : ℚ
  is_toggle : Bool
  is_integer : Bool
  is_logarithmic : Bool
  is_dirty : Bool
  has_engine : Bool
  engine_send_fails : Bool
  midi_chan : Option ℤ
  midi_cc : Option ℤ
  osc_path : Option String
  midi_learn_chan : Option ℤ
  midi_learn_cc : Option ℤ
  ticks : List ℚ
  labels : List String
  deriving DecidableEq

/-- `zynthian_controller._set_value` (zynthian_controller.py:310-340),
restricted to numeric input (the string branch looks labels up instead).
Toggle: keep `val` (as `int(val)` when `is_integer`) if it equals
`value_min` or `value_max`, otherwise snap to `value_min` when
`val < value_mid` else `value_max`.  Non-toggle: when `ticks` is empty and
`is_integer`, truncate with `int()`; then clamp into
`[value_min, value_max]`. -/
def _set_value (z : zctrl) (val : ℚ) : ℚ :=
  if z.is_toggle then
    if val = z.value_min ∨ val = z.value_max then
      if z.is_integer then (pyInt val : ℚ) else val
    else
      if val < z.value_mid then z.value_min else z.value_max
  else
    let v2 := if z.ticks ≠ [] then val
              else if z.is_integer then (pyInt val : ℚ) else val
    if v2 > z.value_max then z.value_max
    else if v2 < z.value_min then z.value_min
    else v2

/-- `zynthian_controller.get_ctrl_midi_val` (zynthian_controller.py:429-441).
`logPart arg` abstracts `int(127 * math.log10(arg))` for `arg > 0`
(transcendental, kept abstract); for `arg ≤ 0` Python's `math.log10`
raises `ValueError`, the `except` catches it and the function returns the
safe default `0`. -/
def get_ctrl_midi_val (logPart : ℚ → ℤ) (z : zctrl) : ℤ :=
  if z.value_range = 0 then 0
  else if z.is_logarithmic then
    let arg := (9 * z.value - (10 * z.value_min - z.value_max)) / z.value_range
    if arg ≤ 0 then 0 else logPart arg
  else
    min 127 (pyInt (127 * (z.value - z.value_min) / z.value_range))

/-- The non-logarithmic branch of `zynthian_controller.midi_control_change`
(zynthian_controller.py:576-583): `value_min + val * value_range / 127`. -/
def from_midi7_linear (z : zctrl) (val : ℤ) : ℚ :=
  z.value_min + (val : ℚ) * z.value_range / 127

/-- Outbound calls attempted by `set_value`: the engine delivery attempt,
the OSC / direct-MIDI fallbacks, and the two MIDI feedback targets
(learned CC, direct CC). -/
inductive SendEvent where
  | engineSend : SendEvent
  | oscSend : String → SendEvent
  | midiSend : Option ℤ → Option ℤ → ℤ → SendEvent
  | fbLearn : Option ℤ → Option ℤ → ℤ → SendEvent
  | fbMidi : Option ℤ → Option ℤ → ℤ → SendEvent
  deriving DecidableEq

def SendEvent.isFbLearn : SendEvent → Bool
  | SendEvent.fbLearn _ _ _ => true
  | _ => false

def SendEvent.isFbMidi : SendEvent → Bool
  | SendEvent.fbMidi _ _ _ => true
  | _ => false

/-- `zynthian_controller.set_value` (zynthian_controller.py:343-383).
Returns the new controller state and the list of outbound calls
attempted, in order.  If the normalized value equals the old one the
function returns immediately (Python returns `None`, which is falsy) with
no state change and no outbound call.  Otherwise: with an engine, the
engine delivery is attempted when `send` (on failure falling back to OSC
if `osc_path` is truthy, else direct MIDI CC if `midi_cc` is truthy), then
MIDI feedback goes to the learned CC if `midi_learn_cc` is truthy, else to
the direct CC if `midi_cc` is truthy; finally `is_dirty` is set. -/
def set_value (logPart : ℚ → ℤ) (z : zctrl) (val : ℚ) (send : Bool) :
    zctrl × List SendEvent :=
  let newv := _set_value z val
  if z.value = newv then (z, [])
  else
    let z1 := { z with value := newv }
    if z.has_engine then
      let mval := get_ctrl_midi_val logPart z1
      let sendEvts :=
        if send then
          if z.engine_send_fails then
            SendEvent.engineSend ::
              (if truthyOptStr z.osc_path then
                 [SendEvent.oscSend (z.osc_path.getD "")]
               else if truthyOptInt z.midi_cc then
                 [SendEvent.midiSend z.midi_chan z.midi_cc mval]
               else [])
          else [SendEvent.engineSend]
        else []
      let fbEvts :=
        if truthyOptInt z.midi_learn_cc then
          [SendEvent.fbLearn z.midi_learn_chan z.midi_learn_cc mval]
        else if truthyOptInt z.midi_cc then
          [SendEvent.fbMidi z.midi_chan z.midi_cc mval]
        else []
      ({ z1 with is_dirty := true }, sendEvts ++ fbEvts)
    else
      ({ z1 with is_dirty := true }, [])

/-- A plain integer-scale controller with range 0..127 and no routing,
as in Scenario A of the spec. -/
def zA : zctrl :=
  { value := 0, value_min := 0, value_mid := 63, value_max := 127
    value_range := 127
    is_toggle := false, is_integer := true, is_logarithmic := false
    is_dirty := false, has_engine := false, engine_send_fails := false
    midi_chan := none, midi_cc := none, osc_path := none
    midi_learn_chan := none, midi_learn_cc := none
    ticks := [], labels := [] }

lemma pyInt_intCast (n : ℤ) : pyInt (n : ℚ) = n := by
  unfold pyInt
  split_ifs <;> simp

lemma pyInt_of_den_one (q : ℚ) (h : q.den = 1) : (pyInt q : ℚ) = q := by
  have hq : ((q.num : ℤ) : ℚ) = q := by
    exact_mod_cast (Rat.den_eq_one_iff q).mp h
  rw [← hq, pyInt_intCast]

lemma pyInt_eq_of_nonneg (q : ℚ) (z : ℤ) (h0 : 0 ≤ q)
    (h1 : (z : ℚ) ≤ q) (h2 : q < z + 1) : pyInt q = z := by
  rw [pyInt, if_pos h0]
  exact Int.floor_eq_iff.mpr ⟨h1, h2⟩

lemma pyInt_eq_of_neg (q : ℚ) (z : ℤ) (h0 : ¬ 0 ≤ q)
    (h1 : (z : ℚ) - 1 < q) (h2 : q ≤ z) : pyInt q = z := by
  rw [pyInt, if_neg h0]
  exact Int.ceil_eq_iff.mpr ⟨h1, h2⟩

lemma ceil_nonpos_of_nonpos (q : ℚ) (h : q ≤ 0) : ((⌈q⌉ : ℤ) : ℚ) ≤ 0 := by
  have : ⌈q⌉ ≤ (0 : ℤ) := Int.ceil_le.mpr (by exact_mod_cast h)
  exact_mod_cast this

lemma abs_pyInt_le (q : ℚ) : |(pyInt q : ℚ)| ≤ |q| := by
  unfold pyInt
  split_ifs with h
  · rw [abs_of_nonneg h, abs_of_nonneg (by exact_mod_cast Int.floor_nonneg.mpr h)]
    exact Int.floor_le q
  · push_neg at h
    rw [abs_of_neg h, abs_of_nonpos (ceil_nonpos_of_nonpos q h.le)]
    exact neg_le_neg (Int.le_ceil q)

lemma abs_lt_abs_pyInt_add_one (q : ℚ) : |q| < |(pyInt q : ℚ)| + 1 := by
  unfold pyInt
  split_ifs with h
  · rw [abs_of_nonneg h, abs_of_nonneg (by exact_mod_cast Int.floor_nonneg.mpr h)]
    exact Int.lt_floor_add_one q
  · push_neg at h
    rw [abs_of_neg h, abs_of_nonpos (ceil_nonpos_of_nonpos q h.le)]
    have := Int.ceil_lt_add_one q
    linarith

/-- C2: `_set_value` stores a value inside `[value_min, value_max]`; for a
toggle the stored value is exactly `value_min` or `value_max`: the raw
value is kept when it equals one of them, otherwise it snaps to
`value_min` when below `value_mid`, else to `value_max`.  Well-formedness
hypotheses: `value_min ≤ value_max`, and integer toggles have integral
bounds. -/
theorem set_value_clamps (z : zctrl) (val : ℚ)
    (hmm : z.value_min ≤ z.value_max)
    (hden : z.is_toggle = true → z.is_integer = true →
      z.value_min.den = 1 ∧ z.value_max.den = 1) :
    (z.value_min ≤ _set_value z val ∧ _set_value z val ≤ z.value_max) ∧
    (z.is_toggle = true →
      (_set_value z val = z.value_min ∨ _set_value z val = z.value_max)) ∧
    (z.is_toggle = true → (val = z.value_min ∨ val = z.value_max) →
      _set_value z val = val) ∧
    (z.is_toggle = true → val ≠ z.value_min → val ≠ z.value_max →
      ((val < z.value_mid → _set_value z val = z.value_min) ∧
       (z.value_mid ≤ val → _set_value z val = z.value_max))) := by
  unfold _set_value
  cases htog : z.is_toggle with
  | false =>
    refine ⟨?_, by simp, by simp, by simp⟩
    simp only [Bool.false_eq_true, if_false]
    split_ifs <;> constructor <;> linarith
  | true =>
    simp only [if_true]
    by_cases hv : val = z.value_min ∨ val = z.value_max
    · rw [if_pos hv]
      have hkeep : (if z.is_integer = true then (pyInt val : ℚ) else val) = val := by
        cases hint : z.is_integer with
        | false => simp
        | true =>
          obtain ⟨hd1, hd2⟩ := hden htog hint
          rcases hv with hv | hv <;>
            simp [hv, pyInt_of_den_one _ hd1, pyInt_of_den_one _ hd2]
      rw [hkeep]
      refine ⟨?_, ?_, fun _ _ => rfl, ?_⟩
      · rcases hv with hv | hv <;> simp [hv, hmm]
      · intro _
        exact hv
      · intro _ hne1 hne2
        rcases hv with hv | hv
        · exact absurd hv hne1
        · exact absurd hv hne2
    · rw [if_neg hv]
      push_neg at hv
      refine ⟨?_, ?_, ?_, ?_⟩
      · split_ifs <;> constructor <;> linarith
      · intro _
        split_ifs
        · exact Or.inl rfl
        · exact Or.inr rfl
      · intro _ h
        exact absurd h (by tauto)
      · intro _ _ _
        constructor
        · intro hlt
          rw [if_pos hlt]
        · intro hge
          rw [if_neg (not_lt.mpr hge)]

/-- Witness for C2 at Scenario A: `min=0, max=127`, integer, non-toggle;
`_set_value 200 = 127` and `_set_value (-5) = 0`, both inside the range. -/
theorem set_value_clamps_witness :
    zA.value_min ≤ zA.value_max ∧
    _set_value zA 200 = 127 ∧ _set_value zA (-5) = 0 ∧
    (zA.value_min ≤ _set_value zA 200 ∧ _set_value zA 200 ≤ zA.value_max) := by
  refine ⟨by decide, by decide, by decide, ?_⟩
  exact (set_value_clamps zA 200 (by decide) (by decide)).1

/-- C7 counterexample: the claim says an integer scale rounds to the
nearest whole number (2.7 would round up to 3); the code applies Python
`int()`, which truncates toward zero, so `_set_value` stores 2. -/
theorem set_value_truncates_cex :
    _set_value zA (27/10) = 2 ∧ round (27/10 : ℚ) = 3 ∧ (2 : ℚ) ≠ 3 := by
  refine ⟨?_, ?_, by norm_num⟩
  · have h : pyInt (27/10) = 2 := pyInt_eq_of_nonneg _ 2 (by norm_num) (by norm_num) (by norm_num)
    norm_num [_set_value, zA, h]
  · rw [round_eq]
    norm_num

/-- C7 amended: for an integer, non-toggle, tick-less scale, `_set_value`
truncates the input toward zero (floor for nonnegative, ceiling for
negative — the fractional part is dropped, never rounded to nearest) and
then clamps into `[value_min, value_max]`. -/
theorem set_value_truncates (z : zctrl) (val : ℚ)
    (h1 : z.is_toggle = false) (h2 : z.ticks = []) (h3 : z.is_integer = true) :
    _set_value z val =
      (if (pyInt val : ℚ) > z.value_max then z.value_max
       else if (pyInt val : ℚ) < z.value_min then z.value_min
       else (pyInt val : ℚ)) ∧
    (0 ≤ val → pyInt val = ⌊val⌋) ∧ (val < 0 → pyInt val = ⌈val⌉) ∧
    |(pyInt val : ℚ)| ≤ |val| ∧ |val| < |(pyInt val : ℚ)| + 1 := by
  refine ⟨?_, ?_, ?_, abs_pyInt_le val, abs_lt_abs_pyInt_add_one val⟩
  · simp [_set_value, h1, h2, h3]
  · intro h
    rw [pyInt, if_pos h]
  · intro h
    rw [pyInt, if_neg (not_le.mpr h)]

/-- Witness for C7 (amended) at the concrete input 2.7 on Scenario A's
controller: the stored value is the truncation 2, clamped trivially. -/
theorem set_value_truncates_witness :
    _set_value zA (27/10) =
      (if (pyInt (27/10) : ℚ) > zA.value_max then zA.value_max
       else if (pyInt (27/10) : ℚ) < zA.value_min then zA.value_min
       else (pyInt (27/10) : ℚ)) ∧
    (0 ≤ (27/10 : ℚ) → pyInt (27/10 : ℚ) = ⌊(27/10 : ℚ)⌋) := by
  have h := set_value_truncates zA (27/10) rfl rfl rfl
  exact ⟨h.1, h.2.1⟩

/-- C8: if the normalized value equals the stored one, `set_value` returns
immediately (a falsy `None` in Python) with no state change — value and
`is_dirty` untouched — and attempts no outbound call; if it differs, the
stored value is updated and `is_dirty` is set. -/
theorem set_value_change_detection (logPart : ℚ → ℤ) (z : zctrl) (val : ℚ)
    (send : Bool) :
    (_set_value z val = z.value → set_value logPart z val send = (z, [])) ∧
    (_set_value z val ≠ z.value →
      (set_value logPart z val send).1.value = _set_value z val ∧
      (set_value logPart z val send).1.is_dirty = true ∧
      (set_value logPart z val send).2 =
        (if z.has_engine then (set_value logPart z val send).2 else [])) := by
  constructor
  · intro h
    simp [set_value, h]
  · intro h
    have hne : ¬ (z.value = _set_value z val) := fun hh => h hh.symm
    simp only [set_value]
    rw [if_neg hne]
    cases he : z.has_engine <;> simp [he]

/-- Witness for C8: on Scenario A's controller, `set_value 0` (already the
stored value) is a no-op with no events, and `set_value 200` updates the
value and sets the dirty flag. -/
theorem set_value_change_detection_witness :
    set_value (fun _ => 0) zA 0 true = (zA, []) ∧
    (set_value (fun _ => 0) zA 200 true).1.value = _set_value zA 200 ∧
    (set_value (fun _ => 0) zA 200 true).1.is_dirty = true := by
  refine ⟨?_, ?_, ?_⟩
  · exact (set_value_change_detection (fun _ => 0) zA 0 true).1 (by decide)
  · exact ((set_value_change_detection (fun _ => 0) zA 200 true).2 (by decide)).1
  · exact ((set_value_change_detection (fun _ => 0) zA 200 true).2 (by decide)).2.1

/-- C9: `get_ctrl_midi_val` never raises; it returns 0 when
`value_range = 0`, and in the logarithmic case a non-positive log argument
(Python `ValueError`, caught by the handler) also yields the safe
default 0. -/
theorem get_ctrl_midi_val_safe (logPart : ℚ → ℤ) (z : zctrl) :
    (z.value_range = 0 → get_ctrl_midi_val logPart z = 0) ∧
    (z.is_logarithmic = true →
      (9 * z.value - (10 * z.value_min - z.value_max)) / z.value_range ≤ 0 →
      get_ctrl_midi_val logPart z = 0) := by
  constructor
  · intro h
    rw [get_ctrl_midi_val, if_pos h]
  · intro hlog harg
    rw [get_ctrl_midi_val]
    split_ifs with h0
    · rfl
    · simp only [hlog, if_pos rfl]
      rw [if_pos harg]

/-- A logarithmic controller whose current value makes the log argument
negative. -/
def zLog : zctrl :=
  { zA with is_logarithmic := true, value := -127 }

/-- Witness for C9: a zero-range controller yields 0, and the logarithmic
controller `zLog` (log argument `(9*(-127) + 127)/127 < 0`) yields 0. -/
theorem get_ctrl_midi_val_safe_witness :
    get_ctrl_midi_val (fun _ => 55) { zA with value_range := 0 } = 0 ∧
    get_ctrl_midi_val (fun _ => 55) zLog = 0 := by
  constructor
  · exact (get_ctrl_midi_val_safe (fun _ => 55) _).1 rfl
  · refine (get_ctrl_midi_val_safe (fun _ => 55) zLog).2 rfl ?_
    show (9 * (-127) - (10 * 0 - 127) : ℚ) / 127 ≤ 0
    norm_num

/-- C10: with an engine and a changed value, MIDI feedback to the learn
target is attempted exactly when `midi_learn_cc` is truthy (non-`None`
and nonzero); a learn binding with CC number 0 therefore gets no learn
feedback at all, and the direct-CC feedback fallback fires exactly when
`midi_cc` is truthy. -/
theorem set_value_learn_feedback (logPart : ℚ → ℤ) (z : zctrl) (val : ℚ)
    (send : Bool) (heng : z.has_engine = true)
    (hch : _set_value z val ≠ z.value) :
    ((set_value logPart z val send).2.any SendEvent.isFbLearn =
      truthyOptInt z.midi_learn_cc) ∧
    (z.midi_learn_cc = some 0 →
      ∀ e ∈ (set_value logPart z val send).2, e.isFbLearn = false) ∧
    (truthyOptInt z.midi_learn_cc = false →
      ((set_value logPart z val send).2.any SendEvent.isFbMidi =
        truthyOptInt z.midi_cc)) := by
  have hne : ¬ (z.value = _set_value z val) := fun hh => hch hh.symm
  have hany : (set_value logPart z val send).2.any SendEvent.isFbLearn =
      truthyOptInt z.midi_learn_cc := by
    simp only [set_value]
    rw [if_neg hne, heng]
    simp only [if_true]
    split_ifs <;> simp_all [SendEvent.isFbLearn]
  have hanyM : truthyOptInt z.midi_learn_cc = false →
      (set_value logPart z val send).2.any SendEvent.isFbMidi =
        truthyOptInt z.midi_cc := by
    intro hl
    simp only [set_value]
    rw [if_neg hne, heng]
    simp only [if_true]
    rw [hl]
    split_ifs <;> simp_all [SendEvent.isFbMidi]
  refine ⟨hany, ?_, hanyM⟩
  intro h0 e he
  have hfalse : (set_value logPart z val send).2.any SendEvent.isFbLearn = false := by
    rw [hany, h0]
    rfl
  have hx := List.any_eq_false.mp hfalse e he
  simpa using hx

/-- A controller with an engine, a learn binding whose CC number is 0 and
a direct CC 5. -/
def zL : zctrl :=
  { zA with has_engine := true, engine_send_fails := true,
            midi_learn_chan := some 1, midi_learn_cc := some 0,
            midi_chan := some 2, midi_cc := some 5 }

/-- Witness for C10: on `zL` (learn CC = 0), a change to 200 produces no
learn feedback, while the direct-CC feedback does fire. -/
theorem set_value_learn_feedback_witness :
    (∀ e ∈ (set_value (fun _ => 0) zL 200 true).2, e.isFbLearn = false) ∧
    ((set_value (fun _ => 0) zL 200 true).2.any SendEvent.isFbMidi =
      truthyOptInt zL.midi_cc) := by
  constructor
  · exact (set_value_learn_feedback (fun _ => 0) zL 200 true rfl
      (by decide)).2.1 rfl
  · exact (set_value_learn_feedback (fun _ => 0) zL 200 true rfl
      (by decide)).2.2 rfl

/-- C5: linear round trip.  For a non-logarithmic scale with
`value_range = value_max - value_min > 0`, converting a value
`v ∈ [value_min, value_max]` to 7 bits with `get_ctrl_midi_val` and back
with the `midi_control_change` formula lands within one quantization step
`value_range / 127` of `v`. -/
theorem linear_midi_round_trip (logPart : ℚ → ℤ) (z : zctrl) (v : ℚ)
    (hlog : z.is_logarithmic = false)
    (hr : z.value_range = z.value_max - z.value_min)
    (hpos : 0 < z.value_range)
    (h1 : z.value_min ≤ v) (h2 : v ≤ z.value_max) :
    |from_midi7_linear z (get_ctrl_midi_val logPart { z with value := v }) - v| ≤
      z.value_range / 127 := by
  have hx0 : 0 ≤ 127 * (v - z.value_min) / z.value_range :=
    div_nonneg (by linarith) hpos.le
  have hx127 : 127 * (v - z.value_min) / z.value_range ≤ 127 := by
    rw [div_le_iff₀ hpos]
    have hvr : v - z.value_min ≤ z.value_range := by
      rw [hr]
      linarith
    nlinarith
  have hmv : get_ctrl_midi_val logPart { z with value := v } =
      ⌊127 * (v - z.value_min) / z.value_range⌋ := by
    have hne : ({ z with value := v } : zctrl).value_range ≠ 0 := ne_of_gt hpos
    rw [get_ctrl_midi_val, if_neg hne, if_neg (by simp [hlog])]
    show min 127 (pyInt (127 * (v - z.value_min) / z.value_range)) = _
    rw [pyInt, if_pos hx0]
    refine min_eq_right ?_
    exact_mod_cast le_trans (Int.floor_le _) hx127
  rw [hmv, from_midi7_linear]
  set x : ℚ := 127 * (v - z.value_min) / z.value_range with hxdef
  have hxv : x * z.value_range / 127 = v - z.value_min := by
    rw [hxdef]
    field_simp
  have key : z.value_min + (⌊x⌋ : ℚ) * z.value_range / 127 - v =
      ((⌊x⌋ : ℚ) - x) * (z.value_range / 127) := by
    have hexp : ((⌊x⌋ : ℚ) - x) * (z.value_range / 127) =
        (⌊x⌋ : ℚ) * z.value_range / 127 - x * z.value_range / 127 := by
      ring
    rw [hexp, hxv]
    ring
  rw [key, abs_mul]
  have hfrac : |(⌊x⌋ : ℚ) - x| ≤ 1 := by
    rw [abs_sub_comm, abs_of_nonneg (by linarith [Int.floor_le x])]
    have := Int.sub_one_lt_floor x
    linarith
  have hd : |z.value_range / 127| = z.value_range / 127 := abs_of_pos (by positivity)
  rw [hd]
  calc |(⌊x⌋ : ℚ) - x| * (z.value_range / 127) ≤ 1 * (z.value_range / 127) :=
        mul_le_mul_of_nonneg_right hfrac (by positivity)
    _ = z.value_range / 127 := one_mul _

/-- Witness for C5 on Scenario A's scale (`min=0, max=127, range=127`) at
`v = 5`: the round trip stays within `127/127 = 1`. -/
theorem linear_midi_round_trip_witness :
    (0 : ℚ) < zA.value_range ∧
    |from_midi7_linear zA (get_ctrl_midi_val (fun _ => 0) { zA with value := 5 }) - 5| ≤
      zA.value_range / 127 := by
  refine ⟨by norm_num [zA], ?_⟩
  exact linear_midi_round_trip (fun _ => 0) zA 5 rfl (by norm_num [zA])
    (by norm_num [zA]) (by norm_num [zA]) (by norm_num [zA])

/-! ## Screen grouping (`zynthian_engine.generate_ctrl_screens`) -/

/-- The controller fields consumed by `generate_ctrl_screens`
(zynthian_engine.py:630-670): symbol, group symbol/name and the
`not_on_gui` hint. -/
structure ZCtrl where
  symbol : String
  group_symbol : Option String
  group_name : Option String
  not_on_gui : Bool
  deriving DecidableEq

/-- One step of the `zctrl_group` accumulation: append the controller to
its group's entry (keyed by `group_symbol`, first-seen order preserved),
creating the entry with raw name `group_name or group_symbol` (Python
truthiness) if absent. -/
def addToGroups : List (Option String × Option String × List ZCtrl) → ZCtrl →
    List (Option String × Option String × List ZCtrl)
  | [], z =>
    [(z.group_symbol,
      if truthyOptStr z.group_name then z.group_name else z.group_symbol, [z])]
  | (k, nm, zs) :: rest, z =>
    if k = z.group_symbol then (k, nm, zs ++ [z]) :: rest
    else (k, nm, zs) :: addToGroups rest z

/-- The grouping pass of `generate_ctrl_screens`: partition by
`group_symbol` in first-seen order, then resolve each group's display
name — the `None` group is renamed `"Ctrls"`, any other group uses its
truthy `group_name` if present, else its `group_symbol` string. -/
def buildGroups (zctrls : List ZCtrl) : List (Option String × String × List ZCtrl) :=
  (zctrls.foldl addToGroups []).map (fun g =>
    (g.1,
     match g.1, g.2.1 with
     | none, _ => "Ctrls"
     | some s, none => s
     | some _, some nm => nm,
     g.2.2))

/-- `zynthian_engine.get_ctrl_screen_name` (zynthian_engine.py:624-627):
`gname` for page index 0, `gname#i` for `i > 0`. -/
def get_ctrl_screen_name (gname : String) (i : ℕ) : String :=
  if i > 0 then gname ++ "#" ++ toString i else gname

/-- The filter applied inside the page loop: a controller is skipped iff
`not ignore_not_on_gui and zctrl.not_on_gui`. -/
def keepCtrl (ignore_not_on_gui : Bool) (z : ZCtrl) : Bool :=
  !(!ignore_not_on_gui && z.not_on_gui)

/-- The inner page loop of `generate_ctrl_screens`: accumulate kept
symbols four at a time, flushing a page named
`get_ctrl_screen_name gname c` and incrementing `c` at each flush; a
nonempty trailing set is flushed as a final page. -/
def pageLoop (gname : String) (ig : Bool) :
    List ZCtrl → List String → ℕ → List (String × List String)
  | [], cset, c =>
    if cset.length ≥ 1 then [(get_ctrl_screen_name gname c, cset)] else []
  | z :: rest, cset, c =>
    if keepCtrl ig z then
      if (cset ++ [z.symbol]).length ≥ 4 then
        (get_ctrl_screen_name gname c, cset ++ [z.symbol]) ::
          pageLoop gname ig rest [] (c + 1)
      else pageLoop gname ig rest (cset ++ [z.symbol]) c
    else pageLoop gname ig rest cset c

/-- The pages of one group: the page counter starts at 0 when the group
(before the `not_on_gui` filter) has at most 4 controllers, else at 1. -/
def groupPages (ig : Bool) (g : Option String × String × List ZCtrl) :
    List (String × List String) :=
  pageLoop g.2.1 ig g.2.2 [] (if g.2.2.length ≤ 4 then 0 else 1)

/-- `zynthian_engine.generate_ctrl_screens` (zynthian_engine.py:630-670),
starting from an empty `_ctrl_screens` list. -/
def generate_ctrl_screens (ig : Bool) (zctrls : List ZCtrl) :
    List (String × List String) :=
  (buildGroups zctrls).flatMap (groupPages ig)

lemma pageLoop_sizes (gname : String) (ig : Bool) :
    ∀ (zs : List ZCtrl) (cset : List String) (c : ℕ), cset.length ≤ 3 →
      ∀ p ∈ pageLoop gname ig zs cset c, 1 ≤ p.2.length ∧ p.2.length ≤ 4 := by
  intro zs
  induction zs with
  | nil =>
    intro cset c hle p hp
    rw [pageLoop] at hp
    split_ifs at hp with h1
    · rw [List.mem_singleton] at hp
      subst hp
      dsimp only
      exact ⟨h1, by omega⟩
    · simp at hp
  | cons z rest ih =>
    intro cset c hle p hp
    rw [pageLoop] at hp
    split_ifs at hp with hk h4
    · rw [List.mem_cons] at hp
      rcases hp with hp | hp
      · subst hp
        dsimp only
        simp only [List.length_append, List.length_singleton] at h4 ⊢
        omega
      · exact ih [] (c + 1) (by simp) p hp
    · refine ih (cset ++ [z.symbol]) c ?_ p hp
      simp only [List.length_append, List.length_singleton] at h4 ⊢
      omega
    · exact ih cset c hle p hp

lemma pageLoop_join (gname : String) (ig : Bool) :
    ∀ (zs : List ZCtrl) (cset : List String) (c : ℕ),
      ((pageLoop gname ig zs cset c).map Prod.snd).flatten =
        cset ++ (zs.filter (keepCtrl ig)).map ZCtrl.symbol := by
  intro zs
  induction zs with
  | nil =>
    intro cset c
    rw [pageLoop]
    split_ifs with h1
    · simp
    · have : cset = [] := List.length_eq_zero.mp (by omega)
      simp [this]
  | cons z rest ih =>
    intro cset c
    rw [pageLoop]
    split_ifs with hk h4
    · simp only [List.map_cons, List.flatten_cons, ih [] (c + 1)]
      simp [List.filter_cons, hk]
    · rw [ih (cset ++ [z.symbol]) c]
      simp [List.filter_cons, hk]
    · rw [ih cset c]
      simp [List.filter_cons, hk]

lemma pageLoop_names (gname : String) (ig : Bool) :
    ∀ (zs : List ZCtrl) (cset : List String) (c : ℕ) (k : ℕ),
      k < (pageLoop gname ig zs cset c).length →
      ((pageLoop gname ig zs cset c).map Prod.fst).getD k "" =
        get_ctrl_screen_name gname (c + k) := by
  intro zs
  induction zs with
  | nil =>
    intro cset c k hk
    rw [pageLoop] at hk ⊢
    split_ifs at hk ⊢ with h1
    · simp only [List.length_singleton] at hk
      interval_cases k
      simp
    · simp at hk
  | cons z rest ih =>
    intro cset c k hk
    rw [pageLoop] at hk ⊢
    split_ifs at hk ⊢ with hk1 h4
    · match k with
      | 0 => simp
      | k + 1 =>
        have hk' : k < (pageLoop gname ig rest [] (c + 1)).length := by
          simpa using hk
        have hih := ih [] (c + 1) k hk'
        simp only [List.map_cons, List.getD_cons_succ]
        rw [hih]
        congr 1
        omega
    · exact ih (cset ++ [z.symbol]) c k hk
    · exact ih cset c k hk

/-- Five controllers in a single group `A` (none hidden). -/
def demo5 : List ZCtrl :=
  [⟨"c1", some "A", none, false⟩, ⟨"c2", some "A", none, false⟩,
   ⟨"c3", some "A", none, false⟩, ⟨"c4", some "A", none, false⟩,
   ⟨"c5", some "A", none, false⟩]

/-- C3 counterexample: for a group of five controllers the page counter
starts at 1, so the first page emitted is named `A#1`, not the group name
`A` as the claim states. -/
theorem ctrl_screen_names_cex :
    generate_ctrl_screens false demo5 =
      [("A#1", ["c1", "c2", "c3", "c4"]), ("A#2", ["c5"])] ∧
    "A#1" ≠ "A" := by
  constructor
  · rfl
  · decide

/-- C3 amended: the k-th page (0-based) of a group is named
`get_ctrl_screen_name gname (c0 + k)` where `c0 = 0` if the group has at
most 4 controllers (before the `not_on_gui` filter) and `c0 = 1`
otherwise; `get_ctrl_screen_name gname 0 = gname` and
`get_ctrl_screen_name gname n = gname#n` for `n > 0`.  So only a group of
at most 4 controllers names its single page `gname`; a larger group's
pages are `gname#1`, `gname#2`, ... from the start. -/
theorem ctrl_screen_names (ig : Bool) (input : List ZCtrl) :
    (∀ g ∈ buildGroups input, ∀ k : ℕ, k < (groupPages ig g).length →
      ((groupPages ig g).map Prod.fst).getD k "" =
        get_ctrl_screen_name g.2.1 ((if g.2.2.length ≤ 4 then 0 else 1) + k)) ∧
    (∀ gname : String, get_ctrl_screen_name gname 0 = gname) ∧
    (∀ (gname : String) (n : ℕ), 0 < n →
      get_ctrl_screen_name gname n = gname ++ "#" ++ toString n) := by
  refine ⟨?_, ?_, ?_⟩
  · intro g hg k hk
    exact pageLoop_names g.2.1 ig g.2.2 [] _ k hk
  · intro gname
    simp [get_ctrl_screen_name]
  · intro gname n hn
    simp [get_ctrl_screen_name, hn]

/-- The single group produced by `demo5`. -/
def gA : Option String × String × List ZCtrl := (some "A", "A", demo5)

/-- Witness for C3 (amended) on the five-controller group: page 0 is
named with counter `1 + 0`, i.e. `A#1`. -/
theorem ctrl_screen_names_witness :
    gA ∈ buildGroups demo5 ∧ 0 < (groupPages false gA).length ∧
    ((groupPages false gA).map Prod.fst).getD 0 "" =
      get_ctrl_screen_name gA.2.1 ((if gA.2.2.length ≤ 4 then 0 else 1) + 0) ∧
    get_ctrl_screen_name "A" 0 = "A" := by
  refine ⟨by decide, by decide, ?_, ?_⟩
  · exact (ctrl_screen_names false demo5).1 gA (by decide) 0 (by decide)
  · exact (ctrl_screen_names false demo5).2.1 "A"

/-- Scenario E's ten controllers: three in group `A`, seven in group `B`. -/
def demoE : List ZCtrl :=
  [⟨"a1", some "A", none, false⟩, ⟨"a2", some "A", none, false⟩,
   ⟨"a3", some "A", none, false⟩,
   ⟨"b1", some "B", none, false⟩, ⟨"b2", some "B", none, false⟩,
   ⟨"b3", some "B", none, false⟩, ⟨"b4", some "B", none, false⟩,
   ⟨"b5", some "B", none, false⟩, ⟨"b6", some "B", none, false⟩,
   ⟨"b7", some "B", none, false⟩]

/-- C6: every emitted page holds 1 to 4 controller symbols; per group, the
concatenation of the pages' symbol lists is exactly the group's
controllers in input order with the `not_on_gui` ones removed (unless
`ignore_not_on_gui` overrides the filter); Scenario E's ten controllers
(3 in group A, 7 in group B) yield exactly 3 pages of sizes 3, 4, 3. -/
theorem generate_ctrl_screens_pages (ig : Bool) (input : List ZCtrl) :
    (∀ p ∈ generate_ctrl_screens ig input, 1 ≤ p.2.length ∧ p.2.length ≤ 4) ∧
    (∀ g ∈ buildGroups input,
      ((groupPages ig g).map Prod.snd).flatten =
        (g.2.2.filter (keepCtrl ig)).map ZCtrl.symbol) ∧
    (generate_ctrl_screens false demoE).map (fun p => p.2.length) = [3, 4, 3] := by
  refine ⟨?_, ?_, ?_⟩
  · intro p hp
    rw [generate_ctrl_screens, List.mem_flatMap] at hp
    obtain ⟨g, hg, hp⟩ := hp
    exact pageLoop_sizes g.2.1 ig g.2.2 [] _ (by simp) p hp
  · intro g hg
    simpa using pageLoop_join g.2.1 ig g.2.2 [] _
  · rfl

/-- Witness for C6 on Scenario E: the first emitted page (`A`, 3 symbols)
is within the size bound, and group A's pages concatenate back to its
three controllers. -/
theorem generate_ctrl_screens_pages_witness :
    ("A", ["a1", "a2", "a3"]) ∈ generate_ctrl_screens false demoE ∧
    (1 ≤ (("A", ["a1", "a2", "a3"]) : String × List String).2.length ∧
      (("A", ["a1", "a2", "a3"]) : String × List String).2.length ≤ 4) ∧
    (generate_ctrl_screens false demoE).map (fun p => p.2.length) = [3, 4, 3] := by
  refine ⟨by decide, ?_, ?_⟩
  · exact (generate_ctrl_screens_pages false demoE).1 _ (by decide)
  · exact (generate_ctrl_screens_pages false demoE).2.2

/-! ## MIDI-learn table (`zynthian_engine.set_midi_learn` / `midi_unlearn`)

Controllers are indexed by `Fin n`; `path i` is controller `i`'s fixed
`get_path()` value (an optional string; the learn operations never change
the fields `get_path` reads).  The state bundles the 16x128 `learned_cc`
grid, the path-keyed `learned_zctrls` dict and each controller's
`midi_learn_chan`/`midi_learn_cc` pair (always set/unset together).  All
controllers are assumed to carry the engine reference (they belong to the
engine owning the table). -/

/-- The engine's MIDI-learn state. -/
structure EngineLearn (n : ℕ) where
  learned_cc : Fin 16 → Fin 128 → Option (Fin n)
  learned_zctrls : Option String → Option (Fin n)
  midi_learn : Fin n → Option (Fin 16 × Fin 128)

/-- The reset state (`reset_midi_learn`): empty grid and dict. -/
def initLearn (n : ℕ) : EngineLearn n :=
  { learned_cc := fun _ _ => none
    learned_zctrls := fun _ => none
    midi_learn := fun _ => none }

/-- `zynthian_engine.midi_unlearn` (zynthian_engine.py:685-693): only if
the controller's path is a key of `learned_zctrls` (membership test, the
stored value is not compared), clear the grid cell indexed by the
controller's own learn fields, delete the dict entry and null the learn
fields.  If the learn fields are `None`, indexing `learned_cc[None]`
raises `TypeError`, the handler logs and nothing is changed. -/
def midi_unlearn (path : Fin n → Option String) (s : EngineLearn n)
    (z : Fin n) : EngineLearn n :=
  if (s.learned_zctrls (path z)).isSome then
    match s.midi_learn z with
    | some (ch, cc) =>
      { learned_cc := fun a b =>
          if a = ch ∧ b = cc then none else s.learned_cc a b
        learned_zctrls := fun p =>
          if p = path z then none else s.learned_zctrls p
        midi_learn := fun w => if w = z then none else s.midi_learn w }
    | none => s
  else s

/-- `zynthian_controller.midi_unlearn` (zynthian_controller.py:501-520):
delegates to the engine only when both learn fields are set (and the
engine reference is, which all table-owned controllers carry). -/
def ctrl_midi_unlearn (path : Fin n → Option String) (s : EngineLearn n)
    (z : Fin n) : EngineLearn n :=
  if (s.midi_learn z).isSome then midi_unlearn path s z else s

/-- `zynthian_engine.set_midi_learn` (zynthian_engine.py:696-713): first
unlearn the target cell's occupant (via the controller-level method; a
`None` occupant raises `AttributeError`, swallowed by `except: pass`),
then unlearn the controller being bound, then install the binding on the
dict, the grid and the controller's learn fields. -/
def set_midi_learn (path : Fin n → Option String) (s : EngineLearn n)
    (z : Fin n) (ch : Fin 16) (cc : Fin 128) : EngineLearn n :=
  let s1 := match s.learned_cc ch cc with
            | some c => ctrl_midi_unlearn path s c
            | none => s
  let s2 := midi_unlearn path s1 z
  { learned_cc := fun a b => if a = ch ∧ b = cc then some z else s2.learned_cc a b
    learned_zctrls := fun p => if p = path z then some z else s2.learned_zctrls p
    midi_learn := fun w => if w = z then some (ch, cc) else s2.midi_learn w }

/-- One bind or unbind operation on the learn table. -/
inductive LearnOp (n : ℕ) where
  | bind : Fin 16 → Fin 128 → Fin n → LearnOp n
  | unlearn : Fin n → LearnOp n

def execLearn (path : Fin n → Option String) (s : EngineLearn n) :
    LearnOp n → EngineLearn n
  | LearnOp.bind ch cc z => set_midi_learn path s z ch cc
  | LearnOp.unlearn z => midi_unlearn path s z

def runLearn (path : Fin n → Option String) (ops : List (LearnOp n)) :
    EngineLearn n :=
  ops.foldl (execLearn path) (initLearn n)

/-- The consistency invariant tying grid cells, learn fields and the
path-keyed dict together. -/
structure LearnInv (path : Fin n → Option String) (s : EngineLearn n) : Prop where
  cell_of_learn : ∀ z ch cc, s.midi_learn z = some (ch, cc) →
    s.learned_cc ch cc = some z
  learn_of_cell : ∀ ch cc z, s.learned_cc ch cc = some z →
    s.midi_learn z = some (ch, cc)
  dict_of_learn : ∀ z, (s.midi_learn z).isSome →
    s.learned_zctrls (path z) = some z
  learn_of_dict : ∀ p z, s.learned_zctrls p = some z →
    path z = p ∧ (s.midi_learn z).isSome

lemma initLearn_inv (path : Fin n → Option String) :
    LearnInv path (initLearn n) := by
  constructor
  · intro z ch cc hz
    exact absurd hz (by simp [initLearn])
  · intro ch cc z hz
    exact absurd hz (by simp [initLearn])
  · intro z hz
    exact absurd hz (by simp [initLearn])
  · intro p z hz
    exact absurd hz (by simp [initLearn])

lemma midi_unlearn_inv (path : Fin n → Option String)
    (hinj : Function.Injective path) (s : EngineLearn n) (z : Fin n)
    (h : LearnInv path s) : LearnInv path (midi_unlearn path s z) := by
  rw [midi_unlearn]
  split_ifs with hmem
  · rcases hml : s.midi_learn z with _ | ⟨ch, cc⟩
    · simp only [hml]
      exact h
    · simp only [hml]
      constructor
      · intro w a b hw
        dsimp only at hw ⊢
        by_cases hwz : w = z
        · rw [if_pos hwz] at hw
          exact absurd hw (by simp)
        · rw [if_neg hwz] at hw
          have hcell := h.cell_of_learn w a b hw
          have hzc := h.cell_of_learn z ch cc hml
          have hne : ¬ (a = ch ∧ b = cc) := by
            rintro ⟨rfl, rfl⟩
            rw [hzc] at hcell
            exact hwz (Option.some_injective _ hcell).symm
          rw [if_neg hne]
          exact hcell
      · intro a b w hw
        dsimp only at hw ⊢
        by_cases hab : a = ch ∧ b = cc
        · rw [if_pos hab] at hw
          exact absurd hw (by simp)
        · rw [if_neg hab] at hw
          have hl := h.learn_of_cell a b w hw
          have hwz : ¬ (w = z) := by
            rintro rfl
            rw [hml] at hl
            simp only [Option.some.injEq, Prod.mk.injEq] at hl
            exact hab ⟨hl.1.symm, hl.2.symm⟩
          rw [if_neg hwz]
          exact hl
      · intro w hw
        dsimp only at hw ⊢
        by_cases hwz : w = z
        · rw [if_pos hwz] at hw
          exact absurd hw (by simp)
        · rw [if_neg hwz] at hw
          have hd := h.dict_of_learn w hw
          have hpne : ¬ (path w = path z) := fun hp => hwz (hinj hp)
          rw [if_neg hpne]
          exact hd
      · intro p w hw
        dsimp only at hw ⊢
        by_cases hp : p = path z
        · rw [if_pos hp] at hw
          exact absurd hw (by simp)
        · rw [if_neg hp] at hw
          obtain ⟨hpw, hsome⟩ := h.learn_of_dict p w hw
          have hwz : ¬ (w = z) := by
            rintro rfl
            exact hp hpw.symm
          rw [if_neg hwz]
          exact ⟨hpw, hsome⟩
  · exact h

lemma ctrl_midi_unlearn_inv (path : Fin n → Option String)
    (hinj : Function.Injective path) (s : EngineLearn n) (z : Fin n)
    (h : LearnInv path s) : LearnInv path (ctrl_midi_unlearn path s z) := by
  rw [ctrl_midi_unlearn]
  split_ifs with hml
  · exact midi_unlearn_inv path hinj s z h
  · exact h

/-- After `midi_unlearn z` (under the invariant, with injective paths) the
controller's learn fields and its dict entry are cleared. -/
lemma midi_unlearn_clears (path : Fin n → Option String)
    (hinj : Function.Injective path) (s : EngineLearn n) (z : Fin n)
    (h : LearnInv path s) :
    (midi_unlearn path s z).midi_learn z = none ∧
    (midi_unlearn path s z).learned_zctrls (path z) = none := by
  rw [midi_unlearn]
  split_ifs with hmem
  · obtain ⟨w, hw⟩ := Option.isSome_iff_exists.mp hmem
    obtain ⟨hpw, hsome⟩ := h.learn_of_dict (path z) w hw
    have hwz : w = z := hinj hpw
    subst hwz
    rcases hml : s.midi_learn w with _ | ⟨ch, cc⟩
    · rw [hml] at hsome
      exact absurd hsome (by simp)
    · simp only [hml]
      constructor <;> simp
  · have hnone : s.midi_learn z = none := by
      rcases hml : s.midi_learn z with _ | ⟨ch, cc⟩
      · rfl
      · exfalso
        apply hmem
        rw [h.dict_of_learn z (by rw [hml]; rfl)]
        rfl
    refine ⟨hnone, ?_⟩
    rcases hd : s.learned_zctrls (path z) with _ | w
    · rfl
    · exact absurd (by rw [hd]; rfl) hmem

/-- `midi_unlearn` never installs a cell: a cell holding a controller
afterwards held it before. -/
lemma midi_unlearn_cell_mono (path : Fin n → Option String)
    (s : EngineLearn n) (z w : Fin n) (a : Fin 16) (b : Fin 128)
    (hw : (midi_unlearn path s z).learned_cc a b = some w) :
    s.learned_cc a b = some w := by
  rw [midi_unlearn] at hw
  split_ifs at hw with hmem
  · rcases hml : s.midi_learn z with _ | ⟨ch, cc⟩
    · rw [hml] at hw
      exact hw
    · rw [hml] at hw
      dsimp only at hw
      by_cases hab : a = ch ∧ b = cc
      · rw [if_pos hab] at hw
        exact absurd hw (by simp)
      · rw [if_neg hab] at hw
        exact hw
  · exact hw

lemma set_midi_learn_inv (path : Fin n → Option String)
    (hinj : Function.Injective path) (s : EngineLearn n) (z : Fin n)
    (ch : Fin 16) (cc : Fin 128) (h : LearnInv path s) :
    LearnInv path (set_midi_learn path s z ch cc) := by
  rw [set_midi_learn]
  set s1 := (match s.learned_cc ch cc with
             | some c => ctrl_midi_unlearn path s c
             | none => s) with hs1
  have h1 : LearnInv path s1 := by
    rw [hs1]
    rcases hocc : s.learned_cc ch cc with _ | c
    · exact h
    · exact ctrl_midi_unlearn_inv path hinj s c h
  have h1cell : s1.learned_cc ch cc = none := by
    rw [hs1]
    rcases hocc : s.learned_cc ch cc with _ | c
    · exact hocc
    · show (ctrl_midi_unlearn path s c).learned_cc ch cc = none
      have hlc := h.learn_of_cell ch cc c hocc
      rw [ctrl_midi_unlearn, if_pos (by rw [hlc]; rfl)]
      rw [midi_unlearn]
      have hmem : (s.learned_zctrls (path c)).isSome := by
        rw [h.dict_of_learn c (by rw [hlc]; rfl)]
        rfl
      rw [if_pos hmem, hlc]
      dsimp only
      rw [if_pos ⟨rfl, rfl⟩]
  set s2 := midi_unlearn path s1 z with hs2
  have h2 : LearnInv path s2 := midi_unlearn_inv path hinj s1 z h1
  obtain ⟨hA0, hB0⟩ := midi_unlearn_clears path hinj s1 z h1
  have hA : s2.midi_learn z = none := by
    rw [hs2]
    exact hA0
  have hC : s2.learned_cc ch cc = none := by
    rcases hcc : s2.learned_cc ch cc with _ | w
    · rfl
    · rw [hs2] at hcc
      have := midi_unlearn_cell_mono path s1 z w ch cc hcc
      rw [h1cell] at this
      exact absurd this (by simp)
  constructor
  · intro w a b hw
    dsimp only at hw ⊢
    by_cases hwz : w = z
    · rw [if_pos hwz] at hw
      simp only [Option.some.injEq, Prod.mk.injEq] at hw
      rw [if_pos ⟨hw.1.symm, hw.2.symm⟩]
      rw [hwz]
    · rw [if_neg hwz] at hw
      have hcell := h2.cell_of_learn w a b hw
      have hab : ¬ (a = ch ∧ b = cc) := by
        rintro ⟨rfl, rfl⟩
        rw [hC] at hcell
        exact absurd hcell (by simp)
      rw [if_neg hab]
      exact hcell
  · intro a b w hw
    dsimp only at hw ⊢
    by_cases hab : a = ch ∧ b = cc
    · rw [if_pos hab] at hw
      have hwz : z = w := Option.some_injective _ hw
      rw [if_pos hwz.symm]
      obtain ⟨rfl, rfl⟩ := hab
      rfl
    · rw [if_neg hab] at hw
      have hl := h2.learn_of_cell a b w hw
      have hwz : ¬ (w = z) := by
        rintro rfl
        rw [hA] at hl
        exact absurd hl (by simp)
      rw [if_neg hwz]
      exact hl
  · intro w hw
    dsimp only at hw ⊢
    by_cases hwz : w = z
    · rw [hwz, if_pos rfl]
    · rw [if_neg hwz] at hw
      have hd := h2.dict_of_learn w hw
      have hpne : ¬ (path w = path z) := fun hp => hwz (hinj hp)
      rw [if_neg hpne]
      exact hd
  · intro p w hw
    dsimp only at hw ⊢
    by_cases hp : p = path z
    · rw [if_pos hp] at hw
      have hwz : z = w := Option.some_injective _ hw
      subst hwz
      refine ⟨hp.symm, ?_⟩
      rw [if_pos rfl]
      rfl
    · rw [if_neg hp] at hw
      obtain ⟨hpw, hsome⟩ := h2.learn_of_dict p w hw
      have hwz : ¬ (w = z) := by
        rintro rfl
        exact hp hpw.symm
      rw [if_neg hwz]
      exact ⟨hpw, hsome⟩

lemma runLearn_inv_aux (path : Fin n → Option String)
    (hinj : Function.Injective path) :
    ∀ (ops : List (LearnOp n)) (s : EngineLearn n), LearnInv path s →
      LearnInv path (ops.foldl (execLearn path) s) := by
  intro ops
  induction ops with
  | nil => exact fun s h => h
  | cons op rest ih =>
    intro s h
    rw [List.foldl_cons]
    apply ih
    rcases op with ⟨ch, cc, z⟩ | z
    · exact set_midi_learn_inv path hinj s z ch cc h
    · exact midi_unlearn_inv path hinj s z h

/-- Distinct paths for the two controllers of Scenario C. -/
def pathAB : Fin 2 → Option String :=
  fun i => if i = 0 then some "a" else some "b"

/-- C1 amended: provided all controllers have pairwise-distinct
`get_path()` keys (the `learned_zctrls` registry is keyed by path), any
sequence of bind/unbind operations from the reset state keeps the table
exclusive — no two grid cells reference the same controller — and a
controller's learn fields equal `(ch, cc)` exactly when cell `(ch, cc)`
references it.  Scenario C: `bind(1,7,A)` then `bind(1,7,B)` leaves cell
`(1,7)` on B and A's learn fields cleared. -/
theorem midi_learn_exclusive (n : ℕ) (path : Fin n → Option String)
    (hinj : Function.Injective path) (ops : List (LearnOp n)) :
    (∀ ch cc ch' cc' z,
      (runLearn path ops).learned_cc ch cc = some z →
      (runLearn path ops).learned_cc ch' cc' = some z →
      ch = ch' ∧ cc = cc') ∧
    (∀ z ch cc, (runLearn path ops).midi_learn z = some (ch, cc) ↔
      (runLearn path ops).learned_cc ch cc = some z) ∧
    ((runLearn pathAB [LearnOp.bind 1 7 0, LearnOp.bind 1 7 1]).learned_cc 1 7 =
        some 1 ∧
      (runLearn pathAB [LearnOp.bind 1 7 0, LearnOp.bind 1 7 1]).midi_learn 0 =
        none) := by
  have hinv : LearnInv path (runLearn path ops) :=
    runLearn_inv_aux path hinj ops (initLearn n) (initLearn_inv path)
  refine ⟨?_, ?_, by decide, by decide⟩
  · intro ch cc ch' cc' z h1 h2
    have e1 := hinv.learn_of_cell ch cc z h1
    have e2 := hinv.learn_of_cell ch' cc' z h2
    rw [e1] at e2
    have := Option.some_injective _ e2
    exact ⟨congrArg Prod.fst this, congrArg Prod.snd this⟩
  · intro z ch cc
    exact ⟨hinv.cell_of_learn z ch cc, hinv.learn_of_cell ch cc z⟩

/-- Witness for C1 (amended) with two controllers on distinct paths. -/
theorem midi_learn_exclusive_witness :
    Function.Injective pathAB ∧
    ((runLearn pathAB [LearnOp.bind 1 7 0, LearnOp.bind 1 7 1]).learned_cc 1 7 =
        some 1 ∧
      (runLearn pathAB [LearnOp.bind 1 7 0, LearnOp.bind 1 7 1]).midi_learn 0 =
        none) := by
  refine ⟨by decide, ?_⟩
  exact (midi_learn_exclusive 2 pathAB (by decide) []).2.2

/-- C1 counterexample: two controllers whose `get_path()` is `None` (no
OSC path, no graph path, no direct CC) defeat the path-keyed registry:
after `bind(1,7,A)`, `bind(2,9,B)`, `unlearn(A)` (which deletes the
shared `None` registry entry), `bind(3,3,B)` skips B's self-unlearn, so
cells `(2,9)` and `(3,3)` both reference B — exclusivity is violated. -/
theorem midi_learn_exclusive_cex :
    ((runLearn (fun _ : Fin 2 => (none : Option String))
        [LearnOp.bind 1 7 0, LearnOp.bind 2 9 1, LearnOp.unlearn 0,
         LearnOp.bind 3 3 1]).learned_cc 2 9 = some 1) ∧
    ((runLearn (fun _ : Fin 2 => (none : Option String))
        [LearnOp.bind 1 7 0, LearnOp.bind 2 9 1, LearnOp.unlearn 0,
         LearnOp.bind 3 3 1]).learned_cc 3 3 = some 1) ∧
    ((9 : Fin 128) ≠ (3 : Fin 128)) := by
  refine ⟨by decide, by decide, by decide⟩

/-! ## Nearest-tick scan (`zynthian_controller.get_value2index`) -/

/-- The loop of `get_value2index` (zynthian_controller.py:386-405):
`index`/`dval` track the best index and distance so far, `i` is the
current position; the loop breaks as soon as the distance stops strictly
decreasing. -/
def scanLoop (v : ℚ) : List ℚ → ℚ → ℕ → ℕ → ℕ
  | [], _, index, _ => index
  | t :: rest, dval, index, i =>
    if |t - v| < dval then scanLoop v rest |t - v| i (i + 1)
    else index

/-- `zynthian_controller.get_value2index` with an explicit target value:
`None` when `ticks` is empty (falsy), else the early-exit scan from
index 0. -/
def get_value2index (ticks : List ℚ) (v : ℚ) : Option ℕ :=
  match ticks with
  | [] => none
  | t :: rest => some (scanLoop v rest |t - v| 0 1)

/-- Distance from tick `j` to the target. -/
def tickDist (T : List ℚ) (v : ℚ) (j : ℕ) : ℚ := |T.getD j 0 - v|

lemma getD_drop : ∀ (T : List ℚ) (k : ℕ), (T.drop k).getD 0 (0 : ℚ) = T.getD k 0
  | [], _ => by simp
  | _ :: _, 0 => rfl
  | _ :: r, k + 1 => by
    simp only [List.drop_succ_cons, List.getD_cons_succ]
    exact getD_drop r k

lemma drop_tail : ∀ (T : List ℚ) (k : ℕ), T.drop (k + 1) = (T.drop k).tail
  | [], _ => by simp
  | _ :: _, 0 => by simp
  | _ :: r, k + 1 => by
    simp only [List.drop_succ_cons]
    exact drop_tail r k

lemma pairwise_lt_getD (T : List ℚ) (h : T.Pairwise (· < ·)) :
    ∀ i j, i < j → j < T.length → T.getD i 0 < T.getD j 0 := by
  intro i j hij hj
  have hi : i < T.length := lt_trans hij hj
  rw [List.getD_eq_get T 0 hi, List.getD_eq_get T 0 hj]
  exact List.pairwise_iff_get.mp h ⟨i, hi⟩ ⟨j, hj⟩ hij

/-- For strictly ascending ticks: once the distance stops decreasing it
never decreases again (one step). -/
lemma tickDist_step (T : List ℚ) (v : ℚ)
    (hasc : ∀ i j, i < j → j < T.length → T.getD i 0 < T.getD j 0)
    (j : ℕ) (hj : j + 2 < T.length)
    (hd : tickDist T v j ≤ tickDist T v (j + 1)) :
    tickDist T v (j + 1) ≤ tickDist T v (j + 2) := by
  have h01 : T.getD j 0 < T.getD (j + 1) 0 := hasc j (j + 1) (by omega) (by omega)
  have h12 : T.getD (j + 1) 0 < T.getD (j + 2) 0 := hasc (j + 1) (j + 2) (by omega) hj
  rcases le_or_lt (T.getD (j + 1) 0) v with hle | hlt
  · exfalso
    have e1 : tickDist T v (j + 1) = v - T.getD (j + 1) 0 := by
      rw [tickDist, abs_of_nonpos (by linarith)]
      ring
    have e0 : tickDist T v j = v - T.getD j 0 := by
      rw [tickDist, abs_of_nonpos (by linarith)]
      ring
    rw [e0, e1] at hd
    linarith
  · have e1 : tickDist T v (j + 1) = T.getD (j + 1) 0 - v := by
      rw [tickDist, abs_of_nonneg (by linarith)]
    have e2 : tickDist T v (j + 2) = T.getD (j + 2) 0 - v := by
      rw [tickDist, abs_of_nonneg (by linarith)]
    rw [e1, e2]
    linarith

lemma tickDist_mono_after (T : List ℚ) (v : ℚ)
    (hasc : ∀ i j, i < j → j < T.length → T.getD i 0 < T.getD j 0)
    (j : ℕ) (hd : tickDist T v j ≤ tickDist T v (j + 1)) :
    ∀ m, j + 1 + m < T.length →
      tickDist T v (j + m) ≤ tickDist T v (j + 1 + m) := by
  intro m
  induction m with
  | zero => intro _; simpa using hd
  | succ k ih =>
    intro h
    have h2 := ih (by omega)
    have e : j + 1 + k = (j + k) + 1 := by omega
    rw [e] at h2
    have h3 := tickDist_step T v hasc (j + k) (by omega) h2
    have e1 : j + (k + 1) = (j + k) + 1 := by omega
    have e2 : j + 1 + (k + 1) = (j + k) + 2 := by omega
    rw [e1, e2]
    exact h3

lemma tickDist_ge_after (T : List ℚ) (v : ℚ)
    (hasc : ∀ i j, i < j → j < T.length → T.getD i 0 < T.getD j 0)
    (j : ℕ) (hd : tickDist T v j ≤ tickDist T v (j + 1)) :
    ∀ m, j + m < T.length → tickDist T v j ≤ tickDist T v (j + m) := by
  intro m
  induction m with
  | zero => intro _; simp
  | succ k ih =>
    intro h
    refine le_trans (ih (by omega)) ?_
    have h2 := tickDist_mono_after T v hasc j hd k (by omega)
    have e : j + 1 + k = j + (k + 1) := by omega
    rw [e] at h2
    exact h2

/-- The scan invariant: entering position `index + 1` with `rest` the
remaining ticks and `index` the argmin of the prefix, the returned index
is in range and minimizes the distance over the whole (strictly
ascending) tick list. -/
lemma scanLoop_spec (T : List ℚ) (v : ℚ)
    (hasc : ∀ i j, i < j → j < T.length → T.getD i 0 < T.getD j 0) :
    ∀ (rest : List ℚ) (index : ℕ),
      index + 1 + rest.length = T.length →
      rest = T.drop (index + 1) →
      (∀ j, j ≤ index → tickDist T v index ≤ tickDist T v j) →
      scanLoop v rest (tickDist T v index) index (index + 1) < T.length ∧
      ∀ j, j < T.length →
        tickDist T v (scanLoop v rest (tickDist T v index) index (index + 1)) ≤
          tickDist T v j := by
  intro rest
  induction rest with
  | nil =>
    intro index hlen hrest hmin
    simp only [scanLoop]
    simp only [List.length_nil] at hlen
    exact ⟨by omega, fun j hj => hmin j (by omega)⟩
  | cons t rest' ih =>
    intro index hlen hrest hmin
    have ht : T.getD (index + 1) 0 = t := by
      have h0 := getD_drop T (index + 1)
      rw [← hrest] at h0
      simpa using h0.symm
    have hd1 : tickDist T v (index + 1) = |t - v| := by
      rw [tickDist, ht]
    have hrest' : rest' = T.drop (index + 1 + 1) := by
      have h0 := drop_tail T (index + 1)
      rw [← hrest] at h0
      simpa using h0.symm
    have hlen' : index + 1 + 1 + rest'.length = T.length := by
      simp only [List.length_cons] at hlen
      omega
    simp only [scanLoop]
    split_ifs with himp
    · rw [← hd1]
      refine ih (index + 1) hlen' hrest' ?_
      intro j hj
      rcases Nat.lt_or_ge j (index + 1) with hlt | hge
      · have h2 := hmin j (by omega)
        have himp' : tickDist T v (index + 1) < tickDist T v index := by
          rw [hd1]
          exact himp
        linarith
      · have hj1 : j = index + 1 := by omega
        rw [hj1]
    · constructor
      · simp only [List.length_cons] at hlen
        omega
      · intro j hj
        rcases le_or_lt j index with hle | hgt
        · exact hmin j hle
        · have hd : tickDist T v index ≤ tickDist T v (index + 1) := by
            rw [hd1]
            exact not_lt.mp himp
          have h2 := tickDist_ge_after T v hasc index hd (j - index) (by omega)
          have e : index + (j - index) = j := by omega
          rw [e] at h2
          exact h2

/-- C4 for strictly ascending ticks. -/
lemma get_value2index_nearest_asc (T : List ℚ) (v : ℚ)
    (h : T.Pairwise (· < ·)) (hne : T ≠ []) :
    ∃ k, get_value2index T v = some k ∧ k < T.length ∧
      ∀ j, j < T.length → |T.getD k 0 - v| ≤ |T.getD j 0 - v| := by
  obtain ⟨t, rest, rfl⟩ := List.exists_cons_of_ne_nil hne
  have hasc := pairwise_lt_getD (t :: rest) h
  have hmin0 : ∀ j, j ≤ 0 → tickDist (t :: rest) v 0 ≤ tickDist (t :: rest) v j := by
    intro j hj
    rw [Nat.le_zero.mp hj]
  have hspec := scanLoop_spec (t :: rest) v hasc rest 0 (by simp [Nat.add_comm]) (by simp) hmin0
  exact ⟨scanLoop v rest |t - v| 0 1, rfl, hspec.1, hspec.2⟩

lemma getD_map_neg : ∀ (T : List ℚ) (j : ℕ),
    (T.map Neg.neg).getD j 0 = -(T.getD j 0)
  | [], _ => by simp
  | _ :: _, 0 => rfl
  | _ :: r, j + 1 => by
    simp only [List.map_cons, List.getD_cons_succ]
    exact getD_map_neg r j

lemma scanLoop_neg (v : ℚ) : ∀ (rest : List ℚ) (dval : ℚ) (index i : ℕ),
    scanLoop (-v) (rest.map Neg.neg) dval index i = scanLoop v rest dval index i
  | [], _, _, _ => rfl
  | t :: r, dval, index, i => by
    simp only [List.map_cons, scanLoop]
    have habs : |-t - -v| = |t - v| := by
      rw [show -t - -v = -(t - v) by ring, abs_neg]
    rw [habs]
    split_ifs with h
    · exact scanLoop_neg v r |t - v| i (i + 1)
    · rfl

lemma get_value2index_neg (T : List ℚ) (v : ℚ) :
    get_value2index (T.map Neg.neg) (-v) = get_value2index T v := by
  cases T with
  | nil => rfl
  | cons t r =>
    simp only [List.map_cons, get_value2index]
    have habs : |-t - -v| = |t - v| := by
      rw [show -t - -v = -(t - v) by ring, abs_neg]
    rw [habs, scanLoop_neg]

/-- C4 amended: for STRICTLY monotonic (ascending or descending)
non-empty ticks, the early-exit scan returns an index minimizing
`|ticks[i] - val|` over all indices. -/
theorem get_value2index_nearest (T : List ℚ) (v : ℚ)
    (hmono : T.Pairwise (· < ·) ∨ T.Pairwise (· > ·)) (hne : T ≠ []) :
    ∃ k, get_value2index T v = some k ∧ k < T.length ∧
      ∀ j, j < T.length → |T.getD k 0 - v| ≤ |T.getD j 0 - v| := by
  rcases hmono with hasc | hdesc
  · exact get_value2index_nearest_asc T v hasc hne
  · have hasc' : (T.map Neg.neg).Pairwise (· < ·) := by
      rw [List.pairwise_map]
      exact hdesc.imp fun hab => neg_lt_neg hab
    have hne' : T.map Neg.neg ≠ [] := by
      simpa using hne
    obtain ⟨k, h1, h2, h3⟩ := get_value2index_nearest_asc (T.map Neg.neg) (-v) hasc' hne'
    rw [get_value2index_neg] at h1
    have hdist : ∀ i, |(T.map Neg.neg).getD i 0 - (-v)| = |T.getD i 0 - v| := by
      intro i
      rw [getD_map_neg, show -(T.getD i 0) - -v = -(T.getD i 0 - v) by ring, abs_neg]
    refine ⟨k, h1, by simpa using h2, ?_⟩
    intro j hj
    have := h3 j (by simpa using hj)
    rwa [hdist, hdist] at this

/-- Witness for C4 (amended) on the strictly ascending ticks
`[0, 64, 127]` with target 70 (nearest tick: 64 at index 1). -/
theorem get_value2index_nearest_witness :
    (([0, 64, 127] : List ℚ).Pairwise (· < ·) ∨
      ([0, 64, 127] : List ℚ).Pairwise (· > ·)) ∧
    ∃ k, get_value2index [0, 64, 127] 70 = some k ∧
      k < ([0, 64, 127] : List ℚ).length ∧
      ∀ j, j < ([0, 64, 127] : List ℚ).length →
        |([0, 64, 127] : List ℚ).getD k 0 - 70| ≤
          |([0, 64, 127] : List ℚ).getD j 0 - 70| := by
  have hp : ([0, 64, 127] : List ℚ).Pairwise (· < ·) := by
    norm_num [List.pairwise_cons]
  exact ⟨Or.inl hp, get_value2index_nearest [0, 64, 127] 70 (Or.inl hp) (by simp)⟩

/-- C4 counterexample: the monotone (non-strict) tick list `[0, 0, 1]` —
which the integer tick auto-generation can produce (e.g. `min=0, max=1`,
3 labels) — with target 1: the duplicate makes the scan break at index 1
and return 0 (distance 1), although index 2 has distance 0. -/
theorem get_value2index_nearest_cex :
    ([0, 0, 1] : List ℚ).Pairwise (· ≤ ·) ∧
    get_value2index [0, 0, 1] 1 = some 0 ∧
    |([0, 0, 1] : List ℚ).getD 2 0 - 1| < |([0, 0, 1] : List ℚ).getD 0 0 - 1| := by
  have habs : |(0 : ℚ) - 1| = 1 := by norm_num
  refine ⟨?_, ?_, ?_⟩
  · norm_num [List.pairwise_cons]
  · have h1 : scanLoop 1 [(0 : ℚ), 1] 1 0 1 = 0 := by
      rw [scanLoop, habs, if_neg (by norm_num)]
    show some (scanLoop 1 [(0 : ℚ), 1] |(0 : ℚ) - 1| 0 1) = some 0
    rw [habs, h1]
  · norm_num [List.getD_cons_succ, List.getD_cons_zero]

end ZynModel
